import Mathlib

/-!
Shallow embedding of `preparehost.py`: the script that provisions an aarch64
Enterprise Linux host so clang can also target a foreign architecture.  The
verified core is `install_alt_platforms_rtlib` together with
`populate_platform_suffix` and the `popen_cm` context manager.

Modelling choices:
* absolute filesystem paths are lists of path components below the root;
* the filesystem is a partial map from paths to file objects (regular file
  contents or a symbolic link target); directories are implicit;
* external processes (clang, dnf, rpm2cpio, cpio) are modelled by an
  environment record supplying their observable results (probe output paths,
  exit codes, the download directory listing, the extracted tree and the
  `os.walk` traversal of it);
* Python exceptions are an explicit error type; a step returns the filesystem
  reached so far together with an optional raised error.
-/

namespace PrepareHost

/-- Absolute filesystem paths, as the list of components below the root. -/
abbrev FPath := List String

/-- A file object: a regular file with its contents, or a symbolic link
storing its target verbatim (`shutil.copytree symlinks=True` copies the
link itself, not the file it points to). -/
inductive FileObj where
  | file (contents : String)
  | symlink (target : String)
deriving DecidableEq

/-- The filesystem: a partial map from absolute paths to file objects. -/
abbrev FS := FPath → Option FileObj

/-- Python exceptions that the script can raise, as observed by its caller. -/
inductive PyErr where
  | calledProcessError (cmd : String)
  | keyError
  | typeError
  | valueError
  | indexError
  | fileNotFoundError
deriving DecidableEq

/-! ### Character-list helpers mirroring the Python string operations -/

/-- Python `str.endswith`: the pattern is a suffix of the string. -/
def ends_with (s pat : String) : Bool := pat.data.isSuffixOf s.data

/-- Python `pat in s` (substring containment): scan left to right for a
position where `pat` is a prefix of the rest of the string. -/
def contains_sub (s pat : String) : Bool := go pat.data s.data
where
  go (p : List Char) : List Char → Bool
    | [] => p.isEmpty
    | c :: cs => p.isPrefixOf (c :: cs) || go p cs

/-- Python `str.replace` on character lists: replace every non-overlapping
occurrence of `t` by `r`, scanning left to right and never rescanning the
replacement text (model of `contents.replace('$basearch', platform)`). -/
def list_replace (t r : List Char) : List Char → List Char
  | [] => []
  | c :: cs =>
    if t <+: (c :: cs) ∧ t ≠ [] then
      r ++ list_replace t r (cs.drop (t.length - 1))
    else
      c :: list_replace t r cs
termination_by l => l.length
decreasing_by
  all_goals simp only [List.length_cons, List.length_drop]
  all_goals omega

/-- Python `str.replace` lifted to strings. -/
def py_replace (s t r : String) : String := ⟨list_replace t.data r.data s.data⟩

/-- Strip trailing slashes from a character list (Python `head.rstrip(sep)`
in `posixpath.split`). -/
def rstrip_slash (l : List Char) : List Char :=
  (l.reverse.dropWhile (fun c => c = '/')).reverse

/-- Python `os.path.split`: the tail is everything after the final slash and
the head is everything before it, with trailing slashes stripped from the
head unless the head consists only of slashes. -/
def py_split (s : String) : String × String :=
  let d := s.data
  let tailPart := (d.reverse.takeWhile (fun c => c ≠ '/')).reverse
  let headPart := d.take (d.length - tailPart.length)
  let head := if headPart.any (fun c => c ≠ '/') then rstrip_slash headPart else headPart
  (⟨head⟩, ⟨tailPart⟩)

/-- The name of the parent directory of a path:
`path.split(path.split(p)[0])[1]` in `populate_platform_suffix`. -/
def parent_dir_name (p : String) : String := (py_split (py_split p).1).2

/-- Everything after the first dash, if any: `s.split('-', maxsplit=1)[1]`,
where a dash-free string raises `IndexError` (modelled as `none`). -/
def split_first_dash : List Char → Option (List Char)
  | [] => none
  | c :: rest => if c = '-' then some rest else split_first_dash rest

/-- The body of `populate_platform_suffix`: derive the platform suffix from
the path reported by the native compiler probe, by taking the parent
directory name and stripping everything up to and including the first dash. -/
def populate_platform_suffix (libgcc_path : String) : Option String :=
  (split_first_dash (parent_dir_name libgcc_path).data).map (fun l => ⟨l⟩)

/-- The target triple built for a foreign platform:
`f'{platform}-{PLATFORM_SUFFIX}'`. -/
def platform_triplet (platform suffix : String) : String :=
  platform ++ "-" ++ suffix

/-- Split a character list at every occurrence of the separator character;
the separators themselves are dropped.  The result is always non-empty. -/
def split_on_char (sep : Char) : List Char → List (List Char)
  | [] => [[]]
  | c :: cs =>
    let r := split_on_char sep cs
    if c = sep then [] :: r else (c :: r.headD []) :: r.tail

/-- Components of a path string, as used to look a probe-reported path up in
the modelled filesystem (`os.path.exists`). -/
def path_components (s : String) : FPath :=
  ((split_on_char '/' s.data).filter (fun l => l ≠ [])).map (fun l => (⟨l⟩ : String))

/-- Python `os.path.exists` against the modelled filesystem. -/
def path_exists (fs : FS) (s : String) : Bool := (fs (path_components s)).isSome

/-- Join character lists with a separator character between them. -/
def join_with (sep : Char) : List (List Char) → List Char
  | [] => []
  | [l] => l
  | l :: ls => l ++ sep :: join_with sep ls

/-- Render an absolute path back to its string form. -/
def render_path (p : FPath) : String := ⟨'/' :: join_with '/' (p.map String.data)⟩

/-! ### Model of the `configparser` data mapping used on the copied `dnf.conf`

This models the fragment of `configparser` the script exercises: sections in
file order, single-line `key = value` options with the `=` delimiter, blank
lines and full-line `#`/`;` comments ignored, keys lowercased by the default
`optionxform`, and `write` emitting `key = value` lines with a blank line
after each section.  Continuation lines, the `:` delimiter, interpolation and
the DEFAULT section are not exercised by `dnf.conf` handling and are outside
the model. -/

namespace Ini

/-- Parsed configuration data: sections in file order, each holding its
options in insertion order. -/
abbrev ConfigData := List (String × List (String × String))

/-- Spacing characters stripped around keys and values inside a line. -/
def is_sp (c : Char) : Bool := c == ' ' || c == '\t'

/-- Python `str.strip` restricted to intra-line spacing characters. -/
def strip (l : List Char) : List Char :=
  ((l.dropWhile is_sp).reverse.dropWhile is_sp).reverse

/-- Is this line a section header of the form `[name]`? -/
def is_section_line (l : List Char) : Bool :=
  match l with
  | [] => false
  | c :: rest =>
    c == '[' && (match rest.getLast? with | some d => d == ']' | none => false)

/-- The section name inside a header line. -/
def section_name (l : List Char) : List Char := (l.drop 1).dropLast

/-- Lines `configparser` ignores: blank lines and full-line comments. -/
def is_skippable (l : List Char) : Bool :=
  match strip l with
  | [] => true
  | c :: _ => c == '#' || c == ';'

/-- Parse an option line: split at the first delimiter, strip both sides,
and lowercase the key (the default `optionxform`). -/
def parse_kv (l : List Char) : String × String :=
  let k := l.takeWhile (fun c => c ≠ '=')
  let v := (l.dropWhile (fun c => c ≠ '=')).drop 1
  (⟨(strip k).map Char.toLower⟩, ⟨strip v⟩)

/-- Parse configuration lines into sections with their option lists.  The
recursion is bounded by a fuel argument (structural, so the function reduces
inside the kernel); the fuel never runs out when it starts at the number of
lines, since every step consumes at least one line. -/
def parse_fuel : Nat → List (List Char) → ConfigData
  | 0, _ => []
  | _ + 1, [] => []
  | n + 1, l :: rest =>
    if is_section_line l then
      (⟨section_name l⟩,
        ((rest.takeWhile (fun x => !is_section_line x)).filter
          (fun x => !is_skippable x)).map parse_kv)
        :: parse_fuel n (rest.dropWhile (fun x => !is_section_line x))
    else
      parse_fuel n rest

/-- Parse configuration lines into sections with their option lists. -/
def parse_lines (ls : List (List Char)) : ConfigData := parse_fuel ls.length ls

/-- Parse a whole configuration file. -/
def parse (s : String) : ConfigData := parse_lines (split_on_char '\n' s.data)

/-- The ` = ` delimiter `configparser` writes between key and value. -/
def kv_sep : List Char := [' ', '=', ' ']

/-- Serialize one option line. -/
def write_kv_line (kv : String × String) : List Char :=
  kv.1.data ++ kv_sep ++ kv.2.data

/-- Serialize one section: header, option lines, then a blank line. -/
def write_section_lines (sec : String × List (String × String)) : List (List Char) :=
  ('[' :: (sec.1.data ++ [']'])) :: (sec.2.map write_kv_line ++ [[]])

/-- All lines of a serialized configuration. -/
def write_lines (cfg : ConfigData) : List (List Char) :=
  (cfg.map write_section_lines).flatten

/-- Serialize a whole configuration (`ConfigParser.write`). -/
def write (cfg : ConfigData) : String := ⟨join_with '\n' (write_lines cfg)⟩

/-- Look an option up in an option list (first match). -/
def lookup_opt : List (String × String) → String → Option String
  | [], _ => none
  | kv :: rest, key => if kv.1 = key then some kv.2 else lookup_opt rest key

/-- Look an option up in a configuration (first matching section). -/
def get_option (cfg : ConfigData) (sec key : String) : Option String :=
  match cfg with
  | [] => none
  | s :: rest => if s.1 = sec then lookup_opt s.2 key else get_option rest sec key

/-- Does the configuration contain the section?  (`cfg['main']` raises
`KeyError` when this is false.) -/
def has_section (cfg : ConfigData) (sec : String) : Bool :=
  match cfg with
  | [] => false
  | s :: rest => s.1 = sec || has_section rest sec

/-- Set an option inside an option list: replace it in place when present,
append it otherwise (dictionary semantics). -/
def set_opts (opts : List (String × String)) (key v : String) : List (String × String) :=
  if opts.any (fun kv => kv.1 == key) then
    opts.map (fun kv => if kv.1 = key then (key, v) else kv)
  else
    opts ++ [(key, v)]

/-- Set an option inside the first section of the given name
(`cfg[sec][key] = v`). -/
def set_value (cfg : ConfigData) (sec key v : String) : ConfigData :=
  match cfg with
  | [] => []
  | s :: rest =>
    if s.1 = sec then (s.1, set_opts s.2 key v) :: rest
    else s :: set_value rest sec key v

/-- Does the list not start with a spacing character? -/
def head_ok (l : List Char) : Bool :=
  match l with
  | [] => true
  | c :: _ => !is_sp c

/-- Does the list not end with a spacing character? -/
def last_ok (l : List Char) : Bool :=
  match l.getLast? with
  | some c => !is_sp c
  | none => true

/-- Does the list not start like a section header or a comment? -/
def key_start_ok (l : List Char) : Bool :=
  match l with
  | c :: _ => !(c == '[') && !(c == '#') && !(c == ';')
  | [] => false

/-- Well-formed option key: non-empty, already stripped and lowercased, free
of the delimiter and of newlines, and not starting like a section header or
comment. -/
def wf_key (k : String) : Prop :=
  k.data ≠ [] ∧ head_ok k.data = true ∧ last_ok k.data = true ∧
  k.data.map Char.toLower = k.data ∧
  ('=') ∉ k.data ∧ ('\n') ∉ k.data ∧ key_start_ok k.data = true

instance (k : String) : Decidable (wf_key k) := by
  unfold wf_key
  infer_instance

/-- Well-formed option value: already stripped and free of newlines. -/
def wf_val (v : String) : Prop :=
  head_ok v.data = true ∧ last_ok v.data = true ∧ ('\n') ∉ v.data

instance (v : String) : Decidable (wf_val v) := by
  unfold wf_val
  infer_instance

/-- Well-formed section name: free of newlines. -/
def wf_sec (s : String) : Prop := ('\n') ∉ s.data

instance (s : String) : Decidable (wf_sec s) := by
  unfold wf_sec
  infer_instance

/-- Well-formed configuration data: every section and option well formed. -/
def wf_config (cfg : ConfigData) : Prop :=
  ∀ sec ∈ cfg, wf_sec sec.1 ∧ ∀ kv ∈ sec.2, wf_key kv.1 ∧ wf_val kv.2

instance (cfg : ConfigData) : Decidable (wf_config cfg) := by
  unfold wf_config
  infer_instance

end Ini

/-! ### Filesystem transformers for the script's `shutil`/`os` calls -/

/-- The net effect of the guarded `shutil.rmtree`: everything at or below
`dir` is gone (removing a directory that does not exist changes nothing, so
the `path.exists` guard needs no separate modelling). -/
def rmtree (dir : FPath) (fs : FS) : FS :=
  fun p => if dir <+: p then none else fs p

/-- `shutil.copytree src dst` into a freshly created destination: the whole
subtree below `dst` becomes the image of the subtree below `src`. -/
def copytree (src dst : FPath) (fs : FS) : FS :=
  fun p => if dst <+: p then fs (src ++ p.drop dst.length) else fs p

/-- Write (or overwrite) a single file. -/
def write_file (dst : FPath) (obj : FileObj) (fs : FS) : FS :=
  fun p => if p = dst then some obj else fs p

/-! ### The isolated repository builder (`install_alt_platforms_rtlib`,
repository-context part) -/

def etc_repos_dir : FPath := ["etc", "yum.repos.d"]

def etc_dnf_conf : FPath := ["etc", "dnf", "dnf.conf"]

/-- The per-architecture scratch directory `path.join(HOMEDIR, f'yum-...')`. -/
def yum_dir (home : FPath) (arch : String) : FPath := home ++ ["yum-" ++ arch]

def yum_cfg_file (home : FPath) (arch : String) : FPath :=
  yum_dir home arch ++ ["dnf.conf"]

def yum_repo_dir (home : FPath) (arch : String) : FPath :=
  yum_dir home arch ++ ["yum.repos.d"]

def yum_rpm_dir (home : FPath) (arch : String) : FPath :=
  yum_dir home arch ++ ["RPMs"]

def extract_dir (home : FPath) (arch : String) : FPath :=
  yum_rpm_dir home arch ++ ["extract"]

def main_section : String := "main"

def reposdir_key : String := "reposdir"

def basearch_token : String := "$basearch"

def repo_ext : String := ".repo"

def no_text : String := ""

/-- Does the last path component end with the given extension? -/
def last_ends_with (p : FPath) (ext : String) : Bool :=
  match p.getLast? with
  | some n => ends_with n ext
  | none => false

/-- The `.repo` rewrite loop: every regular file under the copied repository
directory whose name ends in `.repo` has every `$basearch` occurrence
replaced by the foreign architecture; nothing else changes. -/
def rewrite_repos (repodir : FPath) (arch : String) (fs : FS) : FS :=
  fun p =>
    if repodir <+: p ∧ p ≠ repodir ∧ last_ends_with p repo_ext = true then
      match fs p with
      | some (.file c) => some (.file (py_replace c basearch_token arch))
      | o => o
    else fs p

/-- The builder after the scratch directory reset: copy the system
repository definitions and `dnf.conf` into the scratch directory, point the
copied configuration's `reposdir` at the copied repository directory, and
rewrite `$basearch` in the copied `.repo` files.  (`os.makedirs` calls are
implicit: directories exist only through the files below them.) -/
def build_after_reset (home : FPath) (arch : String) (fs0 : FS) : FS × Option PyErr :=
  let fs1 := copytree etc_repos_dir (yum_repo_dir home arch) fs0
  match fs1 etc_dnf_conf with
  | none => (fs1, some .fileNotFoundError)
  | some obj =>
    let fs2 := write_file (yum_cfg_file home arch) obj fs1
    let contents := match obj with
      | .file c => c
      | .symlink _ => no_text
    let cfg := Ini.parse contents
    if Ini.has_section cfg main_section then
      let cfg2 := Ini.set_value cfg main_section reposdir_key
        (render_path (yum_repo_dir home arch))
      let fs3 := write_file (yum_cfg_file home arch) (.file (Ini.write cfg2)) fs2
      (rewrite_repos (yum_repo_dir home arch) arch fs3, none)
    else
      (fs2, some .keyError)

/-- The isolated repository builder: reset the scratch directory, then build
the isolated context inside it. -/
def build_repo_ctx (home : FPath) (arch : String) (fs : FS) : FS × Option PyErr :=
  build_after_reset home arch (rmtree (yum_dir home arch) fs)

/-! ### Fetch, extract, locate and install -/

def rpm2cpio_cmd : String := "rpm2cpio"

def cpio_cmd : String := "cpio -idm"

def download_cmd : String := "dnf download"

/-- The wait performed when a `popen_cm` context manager exits: the child is
reaped, and `CalledProcessError` is raised only when `check` was set and the
exit status is non-zero. -/
def popen_wait (retcode : Int) (check : Bool) (cmd : String) : Option PyErr :=
  if check ∧ retcode ≠ 0 then some (.calledProcessError cmd) else none

/-- The exit handling of the nested `popen_cm` pair around
`rpm2cpio | cpio -idm`: the inner context manager exits first, so `cpio` is
waited on (without `check`), then `rpm2cpio` is waited on with `check=True`. -/
def extract_stage (rpm2cpio_ret cpio_ret : Int) : Option PyErr :=
  match popen_wait cpio_ret false cpio_cmd with
  | some e => some e
  | none => popen_wait rpm2cpio_ret true rpm2cpio_cmd

def rpm_ext : String := ".rpm"

def compiler_rt_name : String := "compiler-rt"

/-- The filter of the download-directory scan:
`fn.endswith('.rpm') and 'compiler-rt' in fn`. -/
def is_rtlib_rpm (fn : String) : Bool :=
  ends_with fn rpm_ext && contains_sub fn compiler_rt_name

/-- The scan of the download directory: the first matching entry in
`os.listdir` order, if any. -/
def find_rpm (listing : List String) : Option String := listing.find? is_rtlib_rpm

/-- Selecting the downloaded package archive.  When no entry matches, the
variable stays `None` and `subprocess.Popen(['rpm2cpio', None])` raises
`TypeError`. -/
def select_rpm_step (listing : List String) : Except PyErr String :=
  match find_rpm listing with
  | none => .error .typeError
  | some fn => .ok fn

/-- The `os.walk` search for the target triple: for each walk entry (a
directory path and its subdirectory names, in traversal order) scan the
subdirectory names; the first name equal to the triple wins and the search
stops. -/
def find_in_walk (entries : List (FPath × List String)) (triplet : String) :
    Option FPath :=
  match entries with
  | [] => none
  | e :: rest =>
    match e.2.find? (fun d => d == triplet) with
    | some idir => some (e.1 ++ [idir])
    | none => find_in_walk rest triplet

/-- The locate step.  When the walk finds nothing, the variable stays `None`
and `Path(None)` raises `TypeError`. -/
def locate_step (entries : List (FPath × List String)) (triplet : String) :
    Except PyErr FPath :=
  match find_in_walk entries triplet with
  | none => .error .typeError
  | some d => .ok d

/-- `pathlib.Path.relative_to`: defined exactly when `base` is a prefix, in
which case it strips it; otherwise `ValueError` is raised. -/
def relative_to (p base : FPath) : Option FPath :=
  if base <+: p then some (p.drop base.length) else none

/-- The install step: compute the located directory's path relative to the
extraction root and `shutil.copytree` it (with `symlinks=True`, so link
objects are copied verbatim) to `path.join('/', rel)` — that is, to `rel`
taken from the real filesystem root. -/
def install_rtlib (located extraction_root : FPath) (fs : FS) : Except PyErr FS :=
  match relative_to located extraction_root with
  | none => .error .valueError
  | some rel => .ok (copytree located rel fs)

/-! ### The per-architecture orchestration -/

/-- Observable actions of one provisioning attempt, in program order. -/
inductive Action where
  | probe (arch : String)
  | buildRepo (arch : String)
  | checkUpdate (arch : String)
  | download (arch : String)
  | spawnExtract (rpmfile : String)
  | locateSearch (name : String)
  | installCopy (src : FPath)
deriving DecidableEq

/-- Results supplied by the external world: probe output paths, process exit
statuses, the download directory listing, the extracted file tree and the
`os.walk` traversal of the extraction directory. -/
structure Env where
  native_libgcc_path : String
  probe_path : String → String
  download_exit : Int
  rpm_listing : List String
  extract_out : FPath → Option FileObj
  rpm2cpio_exit : Int
  cpio_exit : Int
  walk_entries : List (FPath × List String)

/-- The download places the listed package files into the download
directory (their contents are only ever consumed by the external
`rpm2cpio`, so they are modelled as empty regular files). -/
def place_rpms (dir : FPath) (names : List String) (fs : FS) : FS :=
  names.foldl (fun f n => write_file (dir ++ [n]) (.file no_text) f) fs

/-- The extraction populates the extraction directory with the tree produced
by `cpio`. -/
def apply_extract (dir : FPath) (out : FPath → Option FileObj) (fs : FS) : FS :=
  fun p => if dir <+: p then out (p.drop dir.length) else fs p

/-- The final state of one step: filesystem, actions performed so far, and
the exception raised, if any. -/
structure StepResult where
  fs : FS
  trace : List Action
  err : Option PyErr

/-- One iteration of the `install_alt_platforms_rtlib` loop for a single
foreign architecture. -/
def provision_one (env : Env) (home : FPath) (suffix arch : String) (fs : FS) :
    StepResult :=
  let triplet := platform_triplet arch suffix
  if path_exists fs (env.probe_path arch) then
    ⟨fs, [.probe arch], none⟩
  else
    let b := build_repo_ctx home arch fs
    match b.2 with
    | some e => ⟨b.1, [.probe arch, .buildRepo arch], some e⟩
    | none =>
      if env.download_exit ≠ 0 then
        ⟨b.1, [.probe arch, .buildRepo arch, .checkUpdate arch, .download arch],
          some (.calledProcessError download_cmd)⟩
      else
        let fs2 := place_rpms (yum_rpm_dir home arch) env.rpm_listing b.1
        match select_rpm_step env.rpm_listing with
        | .error e =>
          ⟨fs2, [.probe arch, .buildRepo arch, .checkUpdate arch, .download arch],
            some e⟩
        | .ok rpmfile =>
          let fs3 := apply_extract (extract_dir home arch) env.extract_out fs2
          match extract_stage env.rpm2cpio_exit env.cpio_exit with
          | some e =>
            ⟨fs3, [.probe arch, .buildRepo arch, .checkUpdate arch, .download arch,
              .spawnExtract rpmfile], some e⟩
          | none =>
            match locate_step env.walk_entries triplet with
            | .error e =>
              ⟨fs3, [.probe arch, .buildRepo arch, .checkUpdate arch,
                .download arch, .spawnExtract rpmfile, .locateSearch triplet],
                some e⟩
            | .ok located =>
              match install_rtlib located (extract_dir home arch) fs3 with
              | .error e =>
                ⟨fs3, [.probe arch, .buildRepo arch, .checkUpdate arch,
                  .download arch, .spawnExtract rpmfile, .locateSearch triplet],
                  some e⟩
              | .ok fs4 =>
                ⟨fs4, [.probe arch, .buildRepo arch, .checkUpdate arch,
                  .download arch, .spawnExtract rpmfile, .locateSearch triplet,
                  .installCopy located], none⟩

/-- The configured foreign targets. -/
def TARGET_PLATFORMS : List String := ["x86_64"]

/-- Loop over the configured platforms; an exception aborts the whole run. -/
def run_platforms (env : Env) (home : FPath) (suffix : String) :
    List String → FS → StepResult
  | [], fs => ⟨fs, [], none⟩
  | a :: rest, fs =>
    let r := provision_one env home suffix a fs
    match r.err with
    | some e => ⟨r.fs, r.trace, some e⟩
    | none =>
      let r2 := run_platforms env home suffix rest r.fs
      ⟨r2.fs, r.trace ++ r2.trace, r2.err⟩

/-- `install_alt_platforms_rtlib`, given the already-computed platform
suffix. -/
def install_alt_platforms_rtlib (env : Env) (home : FPath) (suffix : String)
    (fs : FS) : StepResult :=
  run_platforms env home suffix TARGET_PLATFORMS fs

/-- `populate_platform_suffix` followed by `install_alt_platforms_rtlib`, as
`main` runs them. -/
def run_main (env : Env) (home : FPath) (fs : FS) : StepResult :=
  match populate_platform_suffix env.native_libgcc_path with
  | none => ⟨fs, [], some .indexError⟩
  | some suffix => install_alt_platforms_rtlib env home suffix fs

/-! ### Notions used to state the claims -/

/-- `no_span t s` says the scanner can match `t` nowhere strictly before the
end of `s` inside `s ++ t`: `s` is free of `t` and no occurrence of `t`
straddles the boundary between `s` and the following token. -/
def no_span (t s : List Char) : Prop := ∀ i < s.length, ¬ t <+: ((s ++ t).drop i)

instance (t s : List Char) : Decidable (no_span t s) :=
  inferInstanceAs (Decidable (∀ i < s.length, ¬ t <+: ((s ++ t).drop i)))

/-- Join chunks with a token list between consecutive chunks.  A string whose
`t`-occurrences are exactly the joins is `sep_join t segs`; replacing every
occurrence by `r` while leaving the rest untouched yields `sep_join r segs`. -/
def sep_join (t : List Char) : List (List Char) → List Char
  | [] => []
  | [s] => s
  | s :: ss => s ++ t ++ sep_join t ss

/-! ### Concrete fixtures used by the witnesses and counterexamples -/

def arch_x86 : String := "x86_64"

def w_home : FPath := ["root"]

def w_suffix : String := "redhat-linux-gnu"

def w_arch_pre : String := "aarch64"

def w_probe_str : String :=
  "/usr/lib/clang/18/lib/aarch64-redhat-linux-gnu/libclang_rt.builtins.a"

def w_env : Env where
  native_libgcc_path := w_probe_str
  probe_path := fun _ => w_probe_str
  download_exit := 1
  rpm_listing := []
  extract_out := fun _ => none
  rpm2cpio_exit := 0
  cpio_exit := 0
  walk_entries := []

def w_fs : FS :=
  fun p => if p = path_components w_probe_str then some (.file no_text) else none

def w_extract_root : FPath := extract_dir w_home arch_x86

def w_rel : FPath := ["usr", "lib", "clang", "18", "lib", "x86_64-redhat-linux-gnu"]

def w_link_name : String := "libclang_rt.builtins.a"

def w_install_fs : FS :=
  fun p =>
    if p = w_extract_root ++ w_rel ++ [w_link_name] then some (.symlink w_link_name)
    else none

def c3_path : FPath := etc_repos_dir ++ ["fedora.repo"]

def c3_fs : FS :=
  fun p => if p = c3_path then some (.file basearch_token) else none

def c4_segs : List (List Char) := [String.data "A", String.data "B", []]

def c4_content : String := "A$basearchB$basearch"

def c4_path : FPath := yum_repo_dir w_home arch_x86 ++ ["fedora.repo"]

def c4_other_path : FPath := yum_repo_dir w_home arch_x86 ++ ["readme.txt"]

def c4_fs : FS :=
  fun p => if p = c4_path then some (.file c4_content) else none

def c5_stale : FPath := yum_dir w_home arch_x86 ++ ["stale.txt"]

def c7_triplet : String := platform_triplet arch_x86 w_suffix

def c7_entries_none : List (FPath × List String) :=
  [(w_extract_root, ["usr"]), (w_extract_root ++ ["usr"], ["lib"])]

def c7_entries_hit : List (FPath × List String) :=
  [(w_extract_root, ["usr"]),
   (w_extract_root ++ ["usr", "lib"], ["aarch64-redhat-linux-gnu", c7_triplet])]

def c8_listing_none : List String := ["compiler-rt.txt", "foo.rpm"]

def c8_hit_name : String := "compiler-rt-18.1-1.el9.x86_64.rpm"

def c8_listing_hit : List String :=
  ["readme.txt", c8_hit_name, "compiler-rt-other.rpm"]

def c10_content : String :=
  "[main]\ngpgcheck=1\n# a comment\nreposdir =  /old \n\n[other]\nBest = True\n"

def c10_dir : String := render_path (yum_repo_dir w_home arch_x86)

def c10_other_key : String := "gpgcheck"

/-! ### Frame lemmas for the filesystem transformers -/

theorem rmtree_frame (dir : FPath) (fs : FS) (p : FPath) (h : ¬ dir <+: p) :
    rmtree dir fs p = fs p := if_neg h

theorem copytree_frame (src dst : FPath) (fs : FS) (p : FPath) (h : ¬ dst <+: p) :
    copytree src dst fs p = fs p := if_neg h

theorem write_file_frame (dst : FPath) (obj : FileObj) (fs : FS) (p : FPath)
    (h : p ≠ dst) : write_file dst obj fs p = fs p := if_neg h

theorem rewrite_repos_frame (repodir : FPath) (arch : String) (fs : FS) (p : FPath)
    (h : ¬ (repodir <+: p ∧ p ≠ repodir ∧ last_ends_with p repo_ext = true)) :
    rewrite_repos repodir arch fs p = fs p := by
  unfold rewrite_repos
  rw [if_neg h]

theorem yum_dir_prefix_repo_dir (home : FPath) (arch : String) :
    yum_dir home arch <+: yum_repo_dir home arch := List.prefix_append _ _

theorem yum_dir_prefix_cfg_file (home : FPath) (arch : String) :
    yum_dir home arch <+: yum_cfg_file home arch := List.prefix_append _ _

/-! ### C2 — idempotency short-circuit -/

/-- C2: when the probed runtime-library path exists on disk, the iteration
for that architecture performs nothing beyond the probe: the filesystem is
returned unchanged, the trace holds only the probe action (no repository
build, no metadata refresh, no download, no extraction, no install), and no
error is raised. -/
theorem C2_idempotent_skip (env : Env) (home : FPath) (suffix arch : String)
    (fs : FS) (h : path_exists fs (env.probe_path arch) = true) :
    provision_one env home suffix arch fs = ⟨fs, [Action.probe arch], none⟩ := by
  unfold provision_one
  simp [h]

theorem C2_idempotent_skip_witness :
    provision_one w_env w_home w_suffix arch_x86 w_fs =
      ⟨w_fs, [Action.probe arch_x86], none⟩ :=
  C2_idempotent_skip w_env w_home w_suffix arch_x86 w_fs (by decide)

/-! ### C5 — scratch-directory reset -/

/-- C5: a file manually placed anywhere under the per-architecture scratch
directory has no effect on the builder: the scratch directory is removed
recursively before being rebuilt, so the builder's entire result (filesystem
and error) is the same with or without the planted file. -/
theorem C5_scratch_reset (home : FPath) (arch : String) (fs : FS) (p : FPath)
    (obj : FileObj) (hp : yum_dir home arch <+: p) :
    build_repo_ctx home arch (write_file p obj fs) = build_repo_ctx home arch fs := by
  unfold build_repo_ctx
  congr 1
  funext q
  unfold rmtree write_file
  by_cases hq : yum_dir home arch <+: q
  · simp [hq]
  · have hqp : q ≠ p := fun e => hq (e ▸ hp)
    simp [hq, hqp]

theorem C5_scratch_reset_witness :
    build_repo_ctx w_home arch_x86 (write_file c5_stale (.file no_text) c3_fs) =
      build_repo_ctx w_home arch_x86 c3_fs :=
  C5_scratch_reset w_home arch_x86 c3_fs c5_stale (.file no_text) (by decide)

/-! ### C6 — extraction exit-status checking -/

/-- C6 counterexample: with `rpm2cpio` exiting 0 and `cpio` exiting 1, the
extraction stage raises nothing — refuting the claim that a non-zero exit of
either piped process makes extraction fail.  (`popen_cm` is entered without
`check=True` for `cpio`, so its exit status is waited on but never checked.) -/
theorem C6_counterexample : extract_stage 0 1 = none := rfl

/-- C6 amended: both children are waited on (the inner `cpio` context exits
first, then `rpm2cpio`), but only the first stage's exit status is checked:
extraction raises `CalledProcessError` exactly when `rpm2cpio` exits
non-zero, regardless of the `cpio` exit status. -/
theorem C6_first_stage_checked (rpm2cpio_ret cpio_ret : Int) :
    extract_stage rpm2cpio_ret cpio_ret =
      if rpm2cpio_ret = 0 then none
      else some (PyErr.calledProcessError rpm2cpio_cmd) := by
  unfold extract_stage popen_wait
  by_cases h : rpm2cpio_ret = 0 <;> simp [h]

/-! ### C9 — installer destination and symlink preservation -/

/-- C9: installing a located directory `extraction_root ++ rel` copies the
subtree at exactly the relative path `rel` under the real filesystem root:
every entry below the located directory appears at the same relative
position under `rel`, symbolic links are copied verbatim as links, and
nothing outside the destination subtree changes. -/
theorem C9_installer (extraction_root rel : FPath) (fs fs2 : FS)
    (h : install_rtlib (extraction_root ++ rel) extraction_root fs = .ok fs2) :
    (∀ q, fs2 (rel ++ q) = fs (extraction_root ++ rel ++ q)) ∧
    (∀ q t, fs (extraction_root ++ rel ++ q) = some (.symlink t) →
      fs2 (rel ++ q) = some (.symlink t)) ∧
    (∀ p, ¬ rel <+: p → fs2 p = fs p) := by
  unfold install_rtlib relative_to at h
  rw [if_pos (List.prefix_append _ _)] at h
  rw [List.drop_left] at h
  have hfs2 : fs2 = copytree (extraction_root ++ rel) rel fs := by
    cases h
    rfl
  subst hfs2
  refine ⟨?_, ?_, ?_⟩
  · intro q
    unfold copytree
    rw [if_pos (List.prefix_append _ _), List.drop_left, List.append_assoc]
  · intro q t hq
    unfold copytree
    rw [if_pos (List.prefix_append _ _), List.drop_left, List.append_assoc]
    rw [List.append_assoc] at hq
    exact hq
  · intro p hp
    exact if_neg hp

theorem C9_installer_witness :
    (copytree (w_extract_root ++ w_rel) w_rel w_install_fs)
        (w_rel ++ [w_link_name]) = some (.symlink w_link_name) ∧
    (copytree (w_extract_root ++ w_rel) w_rel w_install_fs) etc_dnf_conf =
      w_install_fs etc_dnf_conf := by
  have h := C9_installer w_extract_root w_rel w_install_fs
    (copytree (w_extract_root ++ w_rel) w_rel w_install_fs)
    (by unfold install_rtlib relative_to
        rw [if_pos (List.prefix_append _ _), List.drop_left])
  exact ⟨h.2.1 [w_link_name] w_link_name (by decide), h.2.2 etc_dnf_conf (by decide)⟩

/-! ### C3 — isolation of the repository builder -/

/-- C3: the isolated repository builder never modifies the system's own
repository-definitions directory or its main package-manager configuration
file: at every path inside `/etc/yum.repos.d` and at `/etc/dnf/dnf.conf`
the filesystem produced by the builder (in every branch, including failing
ones) agrees with the input filesystem, provided the scratch directory does
not itself lie over those system paths. -/
theorem C3_isolation (home : FPath) (arch : String) (fs : FS) (p : FPath)
    (hp : etc_repos_dir <+: p ∨ p = etc_dnf_conf)
    (hscratch : ¬ yum_dir home arch <+: p) :
    (build_repo_ctx home arch fs).1 p = fs p := by
  have hrepo : ¬ yum_repo_dir home arch <+: p :=
    fun hh => hscratch ((yum_dir_prefix_repo_dir home arch).trans hh)
  have hcfg : p ≠ yum_cfg_file home arch :=
    fun e => hscratch (e ▸ yum_dir_prefix_cfg_file home arch)
  unfold build_repo_ctx build_after_reset
  dsimp only
  split
  · dsimp only
    rw [copytree_frame _ _ _ _ hrepo, rmtree_frame _ _ _ hscratch]
  · split
    · dsimp only
      rw [rewrite_repos_frame _ _ _ _ (fun hx => hrepo hx.1),
          write_file_frame _ _ _ _ hcfg,
          write_file_frame _ _ _ _ hcfg,
          copytree_frame _ _ _ _ hrepo, rmtree_frame _ _ _ hscratch]
    · dsimp only
      rw [write_file_frame _ _ _ _ hcfg,
          copytree_frame _ _ _ _ hrepo, rmtree_frame _ _ _ hscratch]

theorem C3_isolation_witness :
    (build_repo_ctx w_home arch_x86 c3_fs).1 c3_path = c3_fs c3_path :=
  C3_isolation w_home arch_x86 c3_fs c3_path (Or.inl (by decide)) (by decide)

/-! ### C1 — triple correctness -/

theorem split_first_dash_append (a b : List Char) (ha : ('-') ∉ a) :
    split_first_dash (a ++ '-' :: b) = some b := by
  induction a with
  | nil => simp [split_first_dash]
  | cons c cs ih =>
    have hc : c ≠ '-' := fun e => ha (e ▸ List.mem_cons_self c cs)
    simp only [List.cons_append, split_first_dash, if_neg hc]
    exact ih (fun hm => ha (List.mem_cons_of_mem _ hm))

theorem populate_suffix_of_decomp (p pre rest : String)
    (hpre : ('-') ∉ pre.data)
    (hp : parent_dir_name p = pre ++ "-" ++ rest) :
    populate_platform_suffix p = some rest := by
  unfold populate_platform_suffix
  rw [hp]
  have hd : (pre ++ "-" ++ rest).data = pre.data ++ '-' :: rest.data := by
    rw [String.data_append, String.data_append]
    simp
  rw [hd, split_first_dash_append _ _ hpre]
  rfl

theorem locate_name_eq (env : Env) (home : FPath) (suffix arch : String)
    (fs : FS) (name : String)
    (h : Action.locateSearch name ∈ (provision_one env home suffix arch fs).trace) :
    name = platform_triplet arch suffix := by
  unfold provision_one at h
  dsimp only at h
  repeat' split at h
  all_goals simp_all

/-- C1: for every architecture string, the directory name the extraction
tree walk searches for is exactly the architecture, a dash, and the platform
suffix, where the suffix is obtained from the native compiler probe's path
by taking the parent directory name and stripping everything up to and
including the first dash.  Stated as: the suffix resolver yields `rest` on
any probe path whose parent directory name decomposes as `pre-rest` with a
dash-free `pre`; the triple built from it is literally `arch ++ "-" ++ rest`;
and any name the per-architecture pipeline ever hands to the walk search
equals that triple. -/
theorem C1_triple_correctness (arch pre rest p : String)
    (hpre : ('-') ∉ pre.data)
    (hp : parent_dir_name p = pre ++ "-" ++ rest) :
    populate_platform_suffix p = some rest ∧
    platform_triplet arch rest = arch ++ "-" ++ rest ∧
    ∀ (env : Env) (home : FPath) (fs : FS) (name : String),
      Action.locateSearch name ∈ (provision_one env home rest arch fs).trace →
      name = arch ++ "-" ++ rest := by
  refine ⟨populate_suffix_of_decomp p pre rest hpre hp, rfl, ?_⟩
  intro env home fs name h
  exact locate_name_eq env home rest arch fs name h

theorem C1_triple_correctness_witness :
    populate_platform_suffix w_probe_str = some w_suffix ∧
    platform_triplet arch_x86 w_suffix = arch_x86 ++ "-" ++ w_suffix := by
  have h := C1_triple_correctness arch_x86 w_arch_pre w_suffix w_probe_str
    (by decide) (by decide)
  exact ⟨h.1, h.2.1⟩

/-! ### C7 / C8 — first-match scans and the missing not-found errors -/

theorem find?_first_match {α : Type} (p : α → Bool) (pre : List α) (x : α)
    (rest : List α) (hpre : ∀ g ∈ pre, p g = false) (hx : p x = true) :
    List.find? p (pre ++ x :: rest) = some x := by
  induction pre with
  | nil => simp [List.find?_cons_of_pos _ hx]
  | cons a as ih =>
    have ha : p a = false := hpre a (List.mem_cons_self _ _)
    rw [List.cons_append, List.find?_cons_of_neg _ (by simp [ha])]
    exact ih (fun g hg => hpre g (List.mem_cons_of_mem _ hg))

theorem find?_beq_of_mem (t : String) (names : List String) (h : t ∈ names) :
    names.find? (fun d => d == t) = some t := by
  induction names with
  | nil => cases h
  | cons n ns ih =>
    by_cases hn : n = t
    · subst hn
      simp [List.find?_cons_of_pos]
    · have hns : t ∈ ns := by
        rcases List.mem_cons.mp h with h1 | h1
        · exact absurd h1.symm hn
        · exact h1
      rw [List.find?_cons_of_neg _ (by simp [hn])]
      exact ih hns

theorem find_in_walk_eq_none (entries : List (FPath × List String)) (t : String)
    (h : ∀ e ∈ entries, t ∉ e.2) : find_in_walk entries t = none := by
  induction entries with
  | nil => rfl
  | cons e es ih =>
    have hfind : e.2.find? (fun d => d == t) = none := by
      refine List.find?_eq_none.mpr (fun x hx hbeq => ?_)
      exact h e (List.mem_cons_self _ _) (beq_iff_eq.mp hbeq ▸ hx)
    unfold find_in_walk
    rw [hfind]
    exact ih (fun g hg => h g (List.mem_cons_of_mem _ hg))

theorem find_in_walk_first (pre : List (FPath × List String)) (dir : FPath)
    (names : List String) (rest : List (FPath × List String)) (t : String)
    (hpre : ∀ e ∈ pre, t ∉ e.2) (hin : t ∈ names) :
    find_in_walk (pre ++ (dir, names) :: rest) t = some (dir ++ [t]) := by
  induction pre with
  | nil =>
    rw [List.nil_append]
    simp only [find_in_walk]
    rw [find?_beq_of_mem t names hin]
  | cons e es ih =>
    have hfind : e.2.find? (fun d => d == t) = none := by
      refine List.find?_eq_none.mpr (fun x hx hbeq => ?_)
      exact hpre e (List.mem_cons_self _ _) (beq_iff_eq.mp hbeq ▸ hx)
    rw [List.cons_append]
    unfold find_in_walk
    rw [hfind]
    exact ih (fun g hg => hpre g (List.mem_cons_of_mem _ hg))

/-- C7 counterexample: on a concrete extraction tree containing no
subdirectory named after the target triple, the locate step fails with
`TypeError` (from `Path(None)`), not with a dedicated `NotFoundError` — no
such error exists anywhere in the code, refuting the claim that the
operation "fails with NotFoundError rather than failing some other way". -/
theorem C7_counterexample :
    locate_step c7_entries_none c7_triplet = .error .typeError := rfl

/-- C7 amended: when no walk entry lists a subdirectory named exactly like
the target triple, the locate step fails — but with a `TypeError` raised by
the subsequent `Path(None)` relative-path computation, which aborts the
attempt, not with a dedicated `NotFoundError`; and when a matching
subdirectory exists, the first one in walk order is returned and the search
stops (the result is independent of all later entries). -/
theorem C7_locator_behavior (entries : List (FPath × List String))
    (triplet : String) :
    ((∀ e ∈ entries, triplet ∉ e.2) →
      locate_step entries triplet = .error .typeError) ∧
    (∀ pre dir names rest, entries = pre ++ (dir, names) :: rest →
      (∀ e ∈ pre, triplet ∉ e.2) → triplet ∈ names →
      locate_step entries triplet = .ok (dir ++ [triplet])) := by
  constructor
  · intro h
    unfold locate_step
    rw [find_in_walk_eq_none entries triplet h]
  · intro pre dir names rest he hpre hin
    unfold locate_step
    rw [he, find_in_walk_first pre dir names rest triplet hpre hin]

theorem C7_locator_behavior_witness :
    locate_step c7_entries_none c7_triplet = Except.error PyErr.typeError ∧
    locate_step c7_entries_hit c7_triplet =
      Except.ok (w_extract_root ++ ["usr", "lib"] ++ [c7_triplet]) := by
  constructor
  · exact (C7_locator_behavior c7_entries_none c7_triplet).1 (by decide)
  · exact (C7_locator_behavior c7_entries_hit c7_triplet).2
      [(w_extract_root, ["usr"])] (w_extract_root ++ ["usr", "lib"])
      ["aarch64-redhat-linux-gnu", c7_triplet] [] rfl (by decide) (by decide)

/-- C8 counterexample: on a concrete download directory containing no file
that both ends in `.rpm` and contains `compiler-rt`, the selection fails
with `TypeError` (`subprocess.Popen` receives `None` as the `rpm2cpio`
argument), not with a dedicated `PackageNotFoundError` — no such error
exists anywhere in the code. -/
theorem C8_counterexample :
    select_rpm_step c8_listing_none = .error .typeError := rfl

/-- C8 amended: the scan accepts the first file in directory-listing order
whose name ends in `.rpm` and contains `compiler-rt`; when no entry
matches, the step fails — but with a `TypeError` raised when the `rpm2cpio`
invocation is built around `None`, aborting the attempt, not with a
dedicated `PackageNotFoundError`. -/
theorem C8_fetch_scan (listing : List String) :
    (∀ pre fn rest, listing = pre ++ fn :: rest →
      (∀ g ∈ pre, is_rtlib_rpm g = false) → is_rtlib_rpm fn = true →
      select_rpm_step listing = .ok fn) ∧
    ((∀ g ∈ listing, is_rtlib_rpm g = false) →
      select_rpm_step listing = .error .typeError) := by
  constructor
  · intro pre fn rest he hpre hfn
    unfold select_rpm_step find_rpm
    rw [he, find?_first_match is_rtlib_rpm pre fn rest hpre hfn]
  · intro h
    unfold select_rpm_step find_rpm
    rw [List.find?_eq_none.mpr (fun x hx hbx => by rw [h x hx] at hbx; cases hbx)]

theorem C8_fetch_scan_witness :
    select_rpm_step c8_listing_hit = Except.ok c8_hit_name ∧
    select_rpm_step c8_listing_none = Except.error PyErr.typeError := by
  constructor
  · exact (C8_fetch_scan c8_listing_hit).1 ["readme.txt"] c8_hit_name
      ["compiler-rt-other.rpm"] rfl (by decide) (by decide)
  · exact (C8_fetch_scan c8_listing_none).2 (by decide)

/-! ### C4 — rewrite correctness of the `.repo` substitution -/

theorem list_replace_of_not_infix (t r l : List Char) (h : ¬ t <:+: l) :
    list_replace t r l = l := by
  induction l with
  | nil => simp [list_replace]
  | cons c cs ih =>
    rw [list_replace]
    have hnp : ¬ (t <+: (c :: cs) ∧ t ≠ []) := fun hx => h hx.1.isInfix
    rw [if_neg hnp, ih (fun hi => h (List.infix_cons hi))]

theorem prefix_of_prefix_append (t L x : List Char) (h : t <+: L ++ x)
    (hlen : t.length ≤ L.length) : t <+: L := by
  rw [List.prefix_iff_eq_take] at h ⊢
  rw [List.take_append_of_le_length hlen] at h
  exact h

theorem list_replace_boundary (t r : List Char) (ht : t ≠ []) (x : List Char) :
    ∀ s : List Char, no_span t s →
      list_replace t r (s ++ t ++ x) = s ++ r ++ list_replace t r x := by
  intro s
  induction s with
  | nil =>
    intro _
    obtain ⟨c, t2, rfl⟩ : ∃ c t2, t = c :: t2 := by
      cases t with
      | nil => exact absurd rfl ht
      | cons c t2 => exact ⟨c, t2, rfl⟩
    simp only [List.nil_append, List.cons_append]
    rw [list_replace]
    rw [if_pos ⟨List.cons_prefix_cons.mpr ⟨rfl, List.prefix_append _ _⟩, ht⟩]
    simp only [List.length_cons, Nat.add_sub_cancel, List.drop_left]
  | cons a s ih =>
    intro hspan
    have h0 : ¬ t <+: ((a :: s) ++ t) := by
      have := hspan 0 (by simp)
      simpa using this
    rw [List.cons_append, List.cons_append, list_replace]
    have hnp : ¬ (t <+: a :: (s ++ t ++ x) ∧ t ≠ []) := by
      rintro ⟨hpre, -⟩
      apply h0
      have hre : a :: (s ++ t ++ x) = (a :: (s ++ t)) ++ x := by simp
      rw [hre] at hpre
      have hlen : t.length ≤ (a :: (s ++ t)).length := by
        simp only [List.length_cons, List.length_append]
        omega
      simpa using prefix_of_prefix_append t (a :: (s ++ t)) x hpre hlen
    rw [if_neg hnp]
    have hspan2 : no_span t s := by
      intro i hi
      have := hspan (i + 1) (by simpa using Nat.succ_lt_succ hi)
      simpa using this
    rw [ih hspan2]
    simp

theorem list_replace_sep_join (t r : List Char) (ht : t ≠ []) :
    ∀ segs : List (List Char),
      (∀ s ∈ segs.dropLast, no_span t s) →
      (∀ s0, segs.getLast? = some s0 → ¬ t <:+: s0) →
      list_replace t r (sep_join t segs) = sep_join r segs
  | [] => by
    intro _ _
    simp [sep_join, list_replace]
  | [s] => by
    intro _ hlast
    simp only [sep_join]
    exact list_replace_of_not_infix t r s (hlast s rfl)
  | s :: s2 :: ss => by
    intro hspan hlast
    have hs : no_span t s := hspan s (List.mem_cons_self _ _)
    have ih := list_replace_sep_join t r ht (s2 :: ss)
      (fun s0 hs0 => hspan s0 (List.mem_cons_of_mem s hs0))
      (fun s0 h0 => hlast s0 (by rw [List.getLast?_cons_cons]; exact h0))
    simp only [sep_join]
    rw [list_replace_boundary t r ht (sep_join t (s2 :: ss)) s hs, ih]

/-- C4: after the rewrite loop, a regular `.repo` file under the copied
repository-definitions directory whose contents decompose into chunks joined
by the `$basearch` token (chunks that neither contain the token nor let an
occurrence straddle a chunk boundary) holds exactly the same chunks joined
by the literal foreign architecture string — every occurrence replaced, all
other content unchanged — and a file whose name does not end in `.repo` is
not modified at all. -/
theorem C4_rewrite_correctness (repodir : FPath) (arch : String) (fs : FS)
    (p : FPath) (segs : List (List Char))
    (hrp : repodir <+: p) (hne : p ≠ repodir)
    (hext : last_ends_with p repo_ext = true)
    (hcontent : fs p = some (.file ⟨sep_join basearch_token.data segs⟩))
    (hspan : ∀ s ∈ segs.dropLast, no_span basearch_token.data s)
    (hlast : ∀ s0, segs.getLast? = some s0 → ¬ basearch_token.data <:+: s0) :
    rewrite_repos repodir arch fs p = some (.file ⟨sep_join arch.data segs⟩) ∧
    (∀ q, last_ends_with q repo_ext = false →
      rewrite_repos repodir arch fs q = fs q) := by
  constructor
  · unfold rewrite_repos
    rw [if_pos ⟨hrp, hne, hext⟩, hcontent]
    unfold py_replace
    dsimp only
    rw [list_replace_sep_join _ _ (by decide) segs hspan hlast]
  · intro q hq
    apply rewrite_repos_frame
    rintro ⟨-, -, hx⟩
    rw [hq] at hx
    cases hx

theorem C4_rewrite_correctness_witness :
    rewrite_repos (yum_repo_dir w_home arch_x86) arch_x86 c4_fs c4_path =
      some (.file ⟨sep_join arch_x86.data c4_segs⟩) ∧
    rewrite_repos (yum_repo_dir w_home arch_x86) arch_x86 c4_fs c4_other_path =
      c4_fs c4_other_path := by
  have h := C4_rewrite_correctness (yum_repo_dir w_home arch_x86) arch_x86 c4_fs
    c4_path c4_segs (by decide) (by decide) (by decide) (by decide) (by decide)
    (by intro s0 hs0
        rw [show c4_segs.getLast? = some ([] : List Char) from rfl] at hs0
        injection hs0 with he
        subst he
        decide)
  exact ⟨h.1, h.2 c4_other_path (by decide)⟩

/-! ### C10 — lemmas about the configuration model -/

theorem takeWhile_append_all {α : Type} (p : α → Bool) (xs ys : List α)
    (h : ∀ x ∈ xs, p x = true) :
    (xs ++ ys).takeWhile p = xs ++ ys.takeWhile p := by
  induction xs with
  | nil => simp
  | cons a as ih =>
    rw [List.cons_append, List.takeWhile_cons_of_pos (h a (List.mem_cons_self _ _)),
      ih (fun x hx => h x (List.mem_cons_of_mem _ hx)), List.cons_append]

theorem dropWhile_append_all {α : Type} (p : α → Bool) (xs ys : List α)
    (h : ∀ x ∈ xs, p x = true) :
    (xs ++ ys).dropWhile p = ys.dropWhile p := by
  induction xs with
  | nil => simp
  | cons a as ih =>
    rw [List.cons_append, List.dropWhile_cons_of_pos (h a (List.mem_cons_self _ _)),
      ih (fun x hx => h x (List.mem_cons_of_mem _ hx))]

theorem dropWhile_append_singleton {α : Type} (p : α → Bool) (c : α) (xs : List α)
    (h : p c = false) :
    (xs ++ [c]).dropWhile p = xs.dropWhile p ++ [c] := by
  induction xs with
  | nil =>
    have hcp : ¬ p c = true := by simp [h]
    simp [List.dropWhile_cons_of_neg hcp]
  | cons a as ih =>
    by_cases ha : p a = true
    · rw [List.cons_append, List.dropWhile_cons_of_pos ha,
        List.dropWhile_cons_of_pos ha, ih]
    · rw [List.cons_append, List.dropWhile_cons_of_neg ha,
        List.dropWhile_cons_of_neg ha, List.cons_append]

theorem dropWhile_eq_self_of_head {α : Type} (p : α → Bool) (l : List α) (c : α)
    (hh : l.head? = some c) (hc : p c = false) : l.dropWhile p = l := by
  cases l with
  | nil => cases hh
  | cons a as =>
    have : a = c := by injection hh
    subst this
    exact List.dropWhile_cons_of_neg (by simp [hc])

namespace Ini

theorem rstrip_eq_self (l : List Char)
    (hlast : ∀ c, l.getLast? = some c → is_sp c = false) :
    (l.reverse.dropWhile is_sp).reverse = l := by
  cases hg : l.getLast? with
  | none =>
    have : l = [] := by
      cases l with
      | nil => rfl
      | cons a as => simp at hg
    subst this
    rfl
  | some c =>
    have hh : l.reverse.head? = some c := by
      rw [List.head?_reverse]
      exact hg
    rw [dropWhile_eq_self_of_head is_sp l.reverse c hh (hlast c hg)]
    exact List.reverse_reverse l

theorem strip_eq_self (l : List Char)
    (hhead : ∀ c, l.head? = some c → is_sp c = false)
    (hlast : ∀ c, l.getLast? = some c → is_sp c = false) :
    strip l = l := by
  unfold strip
  cases l with
  | nil => rfl
  | cons a as =>
    rw [dropWhile_eq_self_of_head is_sp (a :: as) a rfl (hhead a rfl)]
    exact rstrip_eq_self (a :: as) hlast

theorem strip_append_sp (k : List Char) (hk : k ≠ [])
    (hhead : ∀ c, k.head? = some c → is_sp c = false)
    (hlast : ∀ c, k.getLast? = some c → is_sp c = false) :
    strip (k ++ [' ']) = k := by
  unfold strip
  cases k with
  | nil => exact absurd rfl hk
  | cons a as =>
    rw [List.cons_append,
      dropWhile_eq_self_of_head is_sp (a :: (as ++ [' '])) a rfl (hhead a rfl)]
    have h1 : (a :: (as ++ [' '])).reverse = ' ' :: (a :: as).reverse := by simp
    rw [h1, List.dropWhile_cons_of_pos (by decide)]
    exact rstrip_eq_self (a :: as) hlast

theorem strip_cons_sp (v : List Char)
    (hhead : ∀ c, v.head? = some c → is_sp c = false)
    (hlast : ∀ c, v.getLast? = some c → is_sp c = false) :
    strip (' ' :: v) = v := by
  unfold strip
  rw [List.dropWhile_cons_of_pos (by decide)]
  cases v with
  | nil => rfl
  | cons a as =>
    rw [dropWhile_eq_self_of_head is_sp (a :: as) a rfl (hhead a rfl)]
    exact rstrip_eq_self (a :: as) hlast

theorem strip_head_of_not_sp (l : List Char) (c : Char) (hh : l.head? = some c)
    (hc : is_sp c = false) : (strip l).head? = some c := by
  unfold strip
  cases l with
  | nil => cases hh
  | cons a as =>
    have hac : a = c := by injection hh
    subst hac
    rw [dropWhile_eq_self_of_head is_sp (a :: as) a rfl hc]
    rw [List.reverse_cons, dropWhile_append_singleton is_sp a as.reverse hc]
    rw [List.reverse_append]
    simp

theorem head_ok_spec (l : List Char) (c : Char) (hh : l.head? = some c)
    (h : head_ok l = true) : is_sp c = false := by
  cases l with
  | nil => cases hh
  | cons a as =>
    have : a = c := by injection hh
    subst this
    simpa [head_ok] using h

theorem last_ok_spec (l : List Char) (c : Char) (hg : l.getLast? = some c)
    (h : last_ok l = true) : is_sp c = false := by
  unfold last_ok at h
  rw [hg] at h
  simpa using h

theorem key_start_ok_spec (l : List Char) (c : Char) (hh : l.head? = some c)
    (h : key_start_ok l = true) :
    (c == '[') = false ∧ (c == '#') = false ∧ (c == ';') = false := by
  cases l with
  | nil => cases hh
  | cons a as =>
    have : a = c := by injection hh
    subst this
    unfold key_start_ok at h
    simp only [Bool.and_eq_true, Bool.not_eq_true'] at h
    exact ⟨h.1.1, h.1.2, h.2⟩

theorem is_section_header (nm : List Char) :
    is_section_line ('[' :: (nm ++ [']'])) = true := by
  unfold is_section_line
  dsimp only
  rw [List.getLast?_concat]
  simp

theorem section_name_header (nm : List Char) :
    section_name ('[' :: (nm ++ [']'])) = nm := by
  unfold section_name
  simp [List.dropLast_concat]

theorem is_section_line_false_of_head (l : List Char) (c : Char)
    (hh : l.head? = some c) (hc : (c == '[') = false) :
    is_section_line l = false := by
  cases l with
  | nil => rfl
  | cons a as =>
    have : a = c := by injection hh
    subst this
    unfold is_section_line
    dsimp only
    rw [hc]
    simp

theorem write_kv_line_head (k v : String) (c : Char) (hc : k.data.head? = some c) :
    (write_kv_line (k, v)).head? = some c := by
  have hne : k.data ≠ [] := by
    intro he
    rw [he] at hc
    cases hc
  unfold write_kv_line
  rw [List.append_assoc, List.head?_append_of_ne_nil _ hne]
  exact hc

theorem is_section_line_write_kv (k v : String) (hk : wf_key k) :
    is_section_line (write_kv_line (k, v)) = false := by
  obtain ⟨hk0, hkh, hkl, hklow, hkeq, hknl, hkstart⟩ := hk
  obtain ⟨c, cs, hcl⟩ : ∃ c cs, k.data = c :: cs := by
    cases hl : k.data with
    | nil => exact absurd hl hk0
    | cons c cs => exact ⟨c, cs, rfl⟩
  have hh : k.data.head? = some c := by rw [hcl]; rfl
  exact is_section_line_false_of_head _ c (write_kv_line_head k v c hh)
    (key_start_ok_spec _ c hh hkstart).1

theorem is_skippable_write_kv (k v : String) (hk : wf_key k) :
    is_skippable (write_kv_line (k, v)) = false := by
  obtain ⟨hk0, hkh, hkl, hklow, hkeq, hknl, hkstart⟩ := hk
  obtain ⟨c, cs, hcl⟩ : ∃ c cs, k.data = c :: cs := by
    cases hl : k.data with
    | nil => exact absurd hl hk0
    | cons c cs => exact ⟨c, cs, rfl⟩
  have hh : k.data.head? = some c := by rw [hcl]; rfl
  have hsp : is_sp c = false := head_ok_spec _ c hh hkh
  have hstrip := strip_head_of_not_sp (write_kv_line (k, v)) c
    (write_kv_line_head k v c hh) hsp
  obtain ⟨hb1, hb2, hb3⟩ := key_start_ok_spec _ c hh hkstart
  unfold is_skippable
  cases hsl : strip (write_kv_line (k, v)) with
  | nil =>
    rw [hsl] at hstrip
    cases hstrip
  | cons d rest =>
    rw [hsl] at hstrip
    have : d = c := by injection hstrip
    subst this
    simp [hb2, hb3]

theorem parse_kv_write (k v : String) (hk : wf_key k) (hv : wf_val v) :
    parse_kv (write_kv_line (k, v)) = (k, v) := by
  obtain ⟨hk0, hkh, hkl, hklow, hkeq, hknl, hkstart⟩ := hk
  obtain ⟨hvh, hvl, hvnl⟩ := hv
  have hkall : ∀ x ∈ k.data, (fun c => decide (c ≠ '=')) x = true := by
    intro x hx
    simp only [decide_eq_true_eq]
    exact fun he => hkeq (he ▸ hx)
  unfold write_kv_line kv_sep parse_kv
  dsimp only
  rw [List.append_assoc]
  have hsep : ([' ', '=', ' '] : List Char) ++ v.data
      = ' ' :: '=' :: ' ' :: v.data := rfl
  rw [hsep]
  rw [takeWhile_append_all (fun c => decide (c ≠ '=')) k.data
    (' ' :: '=' :: ' ' :: v.data) hkall]
  rw [dropWhile_append_all (fun c => decide (c ≠ '=')) k.data
    (' ' :: '=' :: ' ' :: v.data) hkall]
  rw [List.takeWhile_cons_of_pos (by decide), List.takeWhile_cons_of_neg (by decide)]
  rw [List.dropWhile_cons_of_pos (by decide), List.dropWhile_cons_of_neg (by decide)]
  have hdrop1 : ('=' :: ' ' :: v.data).drop 1 = ' ' :: v.data := rfl
  rw [hdrop1]
  rw [strip_append_sp k.data hk0 (fun c hc => head_ok_spec _ c hc hkh)
    (fun c hc => last_ok_spec _ c hc hkl)]
  rw [hklow]
  rw [strip_cons_sp v.data (fun c hc => head_ok_spec _ c hc hvh)
    (fun c hc => last_ok_spec _ c hc hvl)]

theorem parse_fuel_congr : ∀ (n m : Nat) (ls : List (List Char)),
    ls.length ≤ n → ls.length ≤ m → parse_fuel n ls = parse_fuel m ls
  | n, m, [] => by
    intro _ _
    cases n <;> cases m <;> rfl
  | 0, m, l :: rest => by
    intro hn _
    exact absurd hn (by simp)
  | n + 1, 0, l :: rest => by
    intro _ hm
    exact absurd hm (by simp)
  | n + 1, m + 1, l :: rest => by
    intro hn hm
    have hd : (rest.dropWhile (fun x => !is_section_line x)).length ≤ rest.length :=
      (List.dropWhile_suffix _).length_le
    have hrn : rest.length ≤ n := by simpa using hn
    have hrm : rest.length ≤ m := by simpa using hm
    simp only [parse_fuel]
    by_cases hsec : is_section_line l = true
    · rw [if_pos hsec, if_pos hsec,
        parse_fuel_congr n m _ (le_trans hd hrn) (le_trans hd hrm)]
    · rw [if_neg (by simp [hsec]), if_neg (by simp [hsec]),
        parse_fuel_congr n m rest hrn hrm]

theorem parse_lines_cons (l : List Char) (rest : List (List Char)) :
    parse_lines (l :: rest) =
      if is_section_line l then
        (⟨section_name l⟩,
          ((rest.takeWhile (fun x => !is_section_line x)).filter
            (fun x => !is_skippable x)).map parse_kv)
          :: parse_lines (rest.dropWhile (fun x => !is_section_line x))
      else parse_lines rest := by
  unfold parse_lines
  simp only [List.length_cons, parse_fuel]
  by_cases hsec : is_section_line l = true
  · rw [if_pos hsec, if_pos hsec,
      parse_fuel_congr rest.length
        ((rest.dropWhile (fun x => !is_section_line x)).length) _
        ((List.dropWhile_suffix _).length_le) (le_refl _)]
  · rw [if_neg (by simp [hsec]), if_neg (by simp [hsec])]

theorem split_no_sep (sep : Char) (l : List Char) (h : sep ∉ l) :
    split_on_char sep l = [l] := by
  induction l with
  | nil => rfl
  | cons c cs ih =>
    have hc : c ≠ sep := fun e => h (e ▸ List.mem_cons_self c cs)
    simp only [split_on_char]
    rw [ih (fun hm => h (List.mem_cons_of_mem _ hm))]
    simp [hc]

theorem split_sep_cons (sep : Char) (l x : List Char) (h : sep ∉ l) :
    split_on_char sep (l ++ sep :: x) = l :: split_on_char sep x := by
  induction l with
  | nil =>
    simp [split_on_char]
  | cons c cs ih =>
    have hc : c ≠ sep := fun e => h (e ▸ List.mem_cons_self c cs)
    simp only [List.cons_append, split_on_char, List.append_eq]
    rw [ih (fun hm => h (List.mem_cons_of_mem _ hm))]
    simp [hc]

theorem split_join (sep : Char) :
    ∀ ls : List (List Char), ls ≠ [] → (∀ l ∈ ls, sep ∉ l) →
      split_on_char sep (join_with sep ls) = ls
  | [] => by
    intro h _
    exact absurd rfl h
  | [l] => by
    intro _ h
    simp only [join_with]
    exact split_no_sep sep l (h l (List.mem_cons_self _ _))
  | l :: l2 :: ls => by
    intro _ h
    have h1 : join_with sep (l :: l2 :: ls) = l ++ sep :: join_with sep (l2 :: ls) := rfl
    rw [h1, split_sep_cons sep l _ (h l (List.mem_cons_self _ _))]
    rw [split_join sep (l2 :: ls) (by simp)
      (fun g hg => h g (List.mem_cons_of_mem _ hg))]

theorem write_lines_no_nl (cfg : ConfigData) (h : wf_config cfg) :
    ∀ l ∈ write_lines cfg, ('\n') ∉ l := by
  intro l hl
  unfold write_lines at hl
  rw [List.mem_flatten] at hl
  obtain ⟨sl, hsl, hl2⟩ := hl
  rw [List.mem_map] at hsl
  obtain ⟨sec, hsec, rfl⟩ := hsl
  obtain ⟨hs, hopts⟩ := h sec hsec
  unfold write_section_lines at hl2
  rcases List.mem_cons.mp hl2 with rfl | hl3
  · intro hm
    rcases List.mem_cons.mp hm with he | hm2
    · exact absurd he (by decide)
    · rcases List.mem_append.mp hm2 with hm3 | hm4
      · exact hs hm3
      · rcases List.mem_singleton.mp hm4 with he2
        exact absurd he2 (by decide)
  · rcases List.mem_append.mp hl3 with hkv | hbl
    · rw [List.mem_map] at hkv
      obtain ⟨kv, hkv2, rfl⟩ := hkv
      obtain ⟨hk, hv⟩ := hopts kv hkv2
      intro hm
      unfold write_kv_line kv_sep at hm
      rcases List.mem_append.mp hm with hm1 | hm2
      · rcases List.mem_append.mp hm1 with hma | hmb
        · exact hk.2.2.2.2.2.1 hma
        · simp at hmb
      · exact hv.2.2 hm2
    · rcases List.mem_singleton.mp hbl with rfl
      intro hm
      cases hm

theorem parse_lines_section (s : String) (opts : List (String × String))
    (R : List (List Char)) (hs : wf_sec s)
    (hopts : ∀ kv ∈ opts, wf_key kv.1 ∧ wf_val kv.2)
    (hR : R = [] ∨ ∃ l2 ls2, R = l2 :: ls2 ∧ is_section_line l2 = true) :
    parse_lines (write_section_lines (s, opts) ++ R) = (s, opts) :: parse_lines R := by
  have hkv_ts : ∀ x ∈ opts.map write_kv_line,
      (fun x => !is_section_line x) x = true := by
    intro x hx
    rw [List.mem_map] at hx
    obtain ⟨⟨k, v⟩, hkv, rfl⟩ := hx
    simp [is_section_line_write_kv k v (hopts (k, v) hkv).1]
  have hfil : ∀ x ∈ opts.map write_kv_line,
      (fun x => !is_skippable x) x = true := by
    intro x hx
    rw [List.mem_map] at hx
    obtain ⟨⟨k, v⟩, hkv, rfl⟩ := hx
    simp [is_skippable_write_kv k v (hopts (k, v) hkv).1]
  unfold write_section_lines
  dsimp only
  rw [List.cons_append, parse_lines_cons]
  rw [if_pos (is_section_header s.data)]
  rw [List.append_assoc]
  have hsingleR : ([[]] : List (List Char)) ++ R = [] :: R := rfl
  rw [hsingleR]
  rw [takeWhile_append_all (fun x => !is_section_line x)
    (opts.map write_kv_line) ([] :: R) hkv_ts]
  rw [List.takeWhile_cons_of_pos (by decide)]
  have htR : R.takeWhile (fun x => !is_section_line x) = [] := by
    rcases hR with rfl | ⟨l2, ls2, rfl, hl2⟩
    · rfl
    · exact List.takeWhile_cons_of_neg (by simp [hl2])
  rw [htR]
  rw [List.filter_append]
  rw [List.filter_eq_self.mpr hfil]
  have hfilbl : List.filter (fun x => !is_skippable x) ([] :: []) = [] := rfl
  rw [hfilbl, List.append_nil]
  rw [List.map_map]
  have hmap : opts.map (parse_kv ∘ write_kv_line) = opts := by
    have hpt : ∀ kv ∈ opts, (parse_kv ∘ write_kv_line) kv = id kv := by
      intro kv hkv
      obtain ⟨hk, hv⟩ := hopts kv hkv
      exact parse_kv_write kv.1 kv.2 hk hv
    rw [List.map_congr_left hpt, List.map_id]
  rw [hmap]
  rw [dropWhile_append_all (fun x => !is_section_line x)
    (opts.map write_kv_line) ([] :: R) hkv_ts]
  rw [List.dropWhile_cons_of_pos (by decide)]
  have hdR : R.dropWhile (fun x => !is_section_line x) = R := by
    rcases hR with rfl | ⟨l2, ls2, rfl, hl2⟩
    · rfl
    · exact List.dropWhile_cons_of_neg (by simp [hl2])
  rw [hdR]
  rw [section_name_header]

theorem parse_lines_write (cfg : ConfigData) (h : wf_config cfg) :
    parse_lines (write_lines cfg) = cfg := by
  induction cfg with
  | nil => rfl
  | cons sec rest ih =>
    obtain ⟨s1, opts⟩ := sec
    have hsec := h (s1, opts) (List.mem_cons_self _ _)
    have hrest : wf_config rest := fun g hg => h g (List.mem_cons_of_mem _ hg)
    have hR : write_lines rest = [] ∨
        ∃ l2 ls2, write_lines rest = l2 :: ls2 ∧ is_section_line l2 = true := by
      cases rest with
      | nil => exact Or.inl rfl
      | cons sec2 rest2 =>
        obtain ⟨s2, opts2⟩ := sec2
        have hshape : write_lines ((s2, opts2) :: rest2) =
            ('[' :: (s2.data ++ [']'])) ::
              ((opts2.map write_kv_line ++ [[]]) ++ write_lines rest2) := by
          unfold write_lines write_section_lines
          simp
        exact Or.inr ⟨'[' :: (s2.data ++ [']']),
          (opts2.map write_kv_line ++ [[]]) ++ write_lines rest2,
          hshape, is_section_header s2.data⟩
    have h1 : write_lines ((s1, opts) :: rest) =
        write_section_lines (s1, opts) ++ write_lines rest := by
      unfold write_lines
      rw [List.map_cons, List.flatten_cons]
    rw [h1, parse_lines_section s1 opts (write_lines rest) hsec.1 hsec.2 hR,
      ih hrest]

theorem parse_write (cfg : ConfigData) (h : wf_config cfg) :
    parse (write cfg) = cfg := by
  unfold parse write
  have hdata : (⟨join_with '\n' (write_lines cfg)⟩ : String).data
      = join_with '\n' (write_lines cfg) := rfl
  rw [hdata]
  cases cfg with
  | nil => rfl
  | cons sec rest =>
    have hne : write_lines (sec :: rest) ≠ [] := by
      obtain ⟨s1, o1⟩ := sec
      unfold write_lines
      simp [write_section_lines]
    rw [split_join '\n' (write_lines (sec :: rest)) hne (write_lines_no_nl _ h)]
    exact parse_lines_write _ h

theorem lookup_map_set (opts : List (String × String)) (key v : String)
    (h : opts.any (fun kv => kv.1 == key) = true) :
    lookup_opt (opts.map (fun kv => if kv.1 = key then (key, v) else kv)) key
      = some v := by
  induction opts with
  | nil => cases h
  | cons kv os ih =>
    by_cases hk : kv.1 = key
    · simp only [List.map_cons, if_pos hk, lookup_opt]
      simp
    · simp only [List.map_cons, if_neg hk, lookup_opt]
      apply ih
      simpa [List.any_cons, hk] using h

theorem lookup_append_of_none (opts : List (String × String)) (key : String)
    (h : ∀ kv ∈ opts, kv.1 ≠ key) (tail : List (String × String)) :
    lookup_opt (opts ++ tail) key = lookup_opt tail key := by
  induction opts with
  | nil => rfl
  | cons kv os ih =>
    simp only [List.cons_append, lookup_opt]
    rw [if_neg (h kv (List.mem_cons_self _ _))]
    exact ih (fun g hg => h g (List.mem_cons_of_mem _ hg))

theorem lookup_set_self (opts : List (String × String)) (key v : String) :
    lookup_opt (set_opts opts key v) key = some v := by
  unfold set_opts
  split
  · exact lookup_map_set opts key v (by assumption)
  · next hany =>
    have hall : ∀ kv ∈ opts, kv.1 ≠ key := by
      intro kv hkv he
      apply hany
      rw [List.any_eq_true]
      exact ⟨kv, hkv, by simp [he]⟩
    rw [lookup_append_of_none opts key hall]
    simp [lookup_opt]

theorem lookup_map_other (opts : List (String × String)) (key v k : String)
    (hk : k ≠ key) :
    lookup_opt (opts.map (fun kv => if kv.1 = key then (key, v) else kv)) k
      = lookup_opt opts k := by
  induction opts with
  | nil => rfl
  | cons kv os ih =>
    by_cases h1 : kv.1 = key
    · simp only [List.map_cons, if_pos h1, lookup_opt]
      rw [if_neg (fun e => hk e.symm), if_neg (by rw [h1]; exact fun e => hk e.symm)]
      exact ih
    · simp only [List.map_cons, if_neg h1, lookup_opt]
      by_cases h2 : kv.1 = k
      · rw [if_pos h2, if_pos h2]
      · rw [if_neg h2, if_neg h2]
        exact ih

theorem lookup_append_single_other (opts : List (String × String))
    (key v k : String) (hk : k ≠ key) :
    lookup_opt (opts ++ [(key, v)]) k = lookup_opt opts k := by
  induction opts with
  | nil =>
    simp only [List.nil_append, lookup_opt]
    rw [if_neg (fun e => hk e.symm)]
  | cons kv os ih =>
    simp only [List.cons_append, lookup_opt]
    by_cases h2 : kv.1 = k
    · rw [if_pos h2, if_pos h2]
    · rw [if_neg h2, if_neg h2]
      exact ih

theorem lookup_set_other (opts : List (String × String)) (key v k : String)
    (hk : k ≠ key) :
    lookup_opt (set_opts opts key v) k = lookup_opt opts k := by
  unfold set_opts
  split
  · exact lookup_map_other opts key v k hk
  · exact lookup_append_single_other opts key v k hk

theorem get_set_self (cfg : ConfigData) (sec key v : String)
    (h : has_section cfg sec = true) :
    get_option (set_value cfg sec key v) sec key = some v := by
  induction cfg with
  | nil => cases h
  | cons s0 rest ih =>
    by_cases hs : s0.1 = sec
    · simp only [set_value, if_pos hs, get_option]
      exact lookup_set_self s0.2 key v
    · simp only [set_value, if_neg hs, get_option]
      apply ih
      simpa [has_section, hs] using h

theorem get_set_other (cfg : ConfigData) (sec key v s k : String)
    (hne : ¬ (s = sec ∧ k = key)) :
    get_option (set_value cfg sec key v) s k = get_option cfg s k := by
  induction cfg with
  | nil => rfl
  | cons s0 rest ih =>
    by_cases h0 : s0.1 = sec
    · simp only [set_value, if_pos h0, get_option]
      by_cases hs0 : s0.1 = s
      · rw [if_pos hs0, if_pos hs0]
        have hks : k ≠ key := by
          intro hkk
          exact hne ⟨hs0.symm.trans h0, hkk⟩
        exact lookup_set_other s0.2 key v k hks
      · rw [if_neg hs0, if_neg hs0]
    · simp only [set_value, if_neg h0, get_option]
      by_cases hs0 : s0.1 = s
      · rw [if_pos hs0, if_pos hs0]
      · rw [if_neg hs0, if_neg hs0]
        exact ih

theorem wf_set_opts (opts : List (String × String)) (key v : String)
    (h : ∀ kv ∈ opts, wf_key kv.1 ∧ wf_val kv.2)
    (hk : wf_key key) (hv : wf_val v) :
    ∀ kv ∈ set_opts opts key v, wf_key kv.1 ∧ wf_val kv.2 := by
  intro kv hkv
  unfold set_opts at hkv
  split at hkv
  · rw [List.mem_map] at hkv
    obtain ⟨kv0, hkv0, rfl⟩ := hkv
    by_cases h1 : kv0.1 = key
    · rw [if_pos h1]
      exact ⟨hk, hv⟩
    · rw [if_neg h1]
      exact h kv0 hkv0
  · rcases List.mem_append.mp hkv with h1 | h2
    · exact h kv h1
    · rcases List.mem_singleton.mp h2 with rfl
      exact ⟨hk, hv⟩

theorem wf_set_value (cfg : ConfigData) (sec key v : String)
    (h : wf_config cfg) (hk : wf_key key) (hv : wf_val v) :
    wf_config (set_value cfg sec key v) := by
  induction cfg with
  | nil => exact h
  | cons s0 rest ih =>
    intro g hg
    simp only [set_value] at hg
    by_cases h0 : s0.1 = sec
    · rw [if_pos h0] at hg
      rcases List.mem_cons.mp hg with he | hg2
      · rw [he]
        have hs0 := h s0 (List.mem_cons_self _ _)
        exact ⟨hs0.1, wf_set_opts s0.2 key v hs0.2 hk hv⟩
      · exact h g (List.mem_cons_of_mem _ hg2)
    · rw [if_neg h0] at hg
      rcases List.mem_cons.mp hg with he | hg2
      · rw [he]
        exact h s0 (List.mem_cons_self _ _)
      · exact ih (fun g2 hg2b => h g2 (List.mem_cons_of_mem _ hg2b)) g hg2

end Ini

/-- C10: the mutation of the copied package-manager configuration changes
only the `reposdir` option of the `[main]` section: after setting it and
writing the file back, re-parsing the written file yields `reposdir`
pointing at the copied repository directory, and every other section and
key/value pair parsed from the copied configuration is preserved (stated
for any well-formed parsed configuration that has a `[main]` section). -/
theorem C10_config_frame (content dir s k : String)
    (hmain : Ini.has_section (Ini.parse content) main_section = true)
    (hwf : Ini.wf_config (Ini.parse content))
    (hdir : Ini.wf_val dir) :
    Ini.get_option (Ini.parse (Ini.write (Ini.set_value (Ini.parse content)
      main_section reposdir_key dir))) main_section reposdir_key = some dir ∧
    (¬ (s = main_section ∧ k = reposdir_key) →
      Ini.get_option (Ini.parse (Ini.write (Ini.set_value (Ini.parse content)
        main_section reposdir_key dir))) s k
        = Ini.get_option (Ini.parse content) s k) := by
  have hkw : Ini.wf_key reposdir_key := by decide
  have hwf2 : Ini.wf_config (Ini.set_value (Ini.parse content) main_section
      reposdir_key dir) := Ini.wf_set_value _ _ _ _ hwf hkw hdir
  rw [Ini.parse_write _ hwf2]
  exact ⟨Ini.get_set_self _ _ _ _ hmain,
    fun hne => Ini.get_set_other _ _ _ _ _ _ hne⟩

theorem C10_config_frame_witness :
    Ini.get_option (Ini.parse (Ini.write (Ini.set_value (Ini.parse c10_content)
      main_section reposdir_key c10_dir))) main_section reposdir_key
      = some c10_dir ∧
    Ini.get_option (Ini.parse (Ini.write (Ini.set_value (Ini.parse c10_content)
      main_section reposdir_key c10_dir))) main_section c10_other_key
      = Ini.get_option (Ini.parse c10_content) main_section c10_other_key := by
  have h := C10_config_frame c10_content c10_dir main_section c10_other_key
    (by decide) (by decide) (by decide)
  exact ⟨h.1, h.2 (by decide)⟩

end PrepareHost

